import Mathlib

/-!
Verification of the branch-and-bound 0/1 knapsack solver.

The definitions below are a shallow embedding of the solver engine in
`algorithms/branch_and_bound.py` together with the bounding strategies of
`algorithms/knapsack_solvers.py`.  Python integers and the float ratio /
fractional arithmetic are modelled exactly over `ℚ`.  The four concrete
solver classes inherit `execute` from the abstract base class; the
traversal mixins (`DepthFirstSolver`, `BestFirstSolver`) define a
`_sort_solution_queue` helper that `execute` never calls, so all four
classes run the base class loop, which pops the last element of the
Python list `self.queue` (LIFO).
-/

/-- An input item, `Item = namedtuple("Item", ["index", "value", "weight"])`:
original position, value, weight. -/
structure Item where
  index : Nat
  value : ℚ
  weight : ℚ
deriving DecidableEq

instance : Inhabited Item := ⟨⟨0, 0, 0⟩⟩

/-- A search-tree node,
`Solution = namedtuple("Solution", ["level", "value", "weight", "optimistic_estimate", "products"])`. -/
structure Solution where
  level : Nat
  value : ℚ
  weight : ℚ
  optimistic_estimate : ℚ
  products : List Nat
deriving DecidableEq

/-- The read-only data of one solver run: the ratio-sorted item list
(`self.sorted_items`) and the capacity (`self.capacity`). -/
structure BnBEnv where
  sorted_items : List Item
  capacity : ℚ

/-- `self.values = [item.value for item in self.sorted_items]`. -/
def BnBEnv.values (env : BnBEnv) : List ℚ :=
  env.sorted_items.map fun it => it.value

/-- `self.weights = [item.weight for item in self.sorted_items]`. -/
def BnBEnv.weights (env : BnBEnv) : List ℚ :=
  env.sorted_items.map fun it => it.weight

/-- `self.n = len(self.sorted_items)`. -/
def BnBEnv.n (env : BnBEnv) : Nat := env.sorted_items.length

/-- `_sort_items`:
`sorted(self.items, key=lambda x: float(x.value) / float(x.weight), reverse=True)`.
Python's sort is stable and `reverse=True` keeps tied elements in input order,
which is `List.mergeSort` with `le a b := ratio b ≤ ratio a`.  Evaluating the
key raises `ZeroDivisionError` when some weight is zero; that is the only
failure, modelled as `.error ()`. -/
def sortItems (items : List Item) : Except Unit (List Item) :=
  if items.all fun it => decide (it.weight ≠ 0) then
    .ok (items.mergeSort fun a b => decide (b.value / b.weight ≤ a.value / a.weight))
  else .error ()

/-- `BranchBoundCapacityConstraint._calculate_optimistic_estimate`:
`solution.weight + self.cumsum_value[-1] - self.cumsum_value[next_item_idx]`,
where `cumsum_value[-1]` is the sum of all sorted values and `cumsum_value[j]`
the sum of the first `j` of them (`np.insert(np.cumsum(values), 0, 0)`). -/
def estimateCapacity (env : BnBEnv) (sol : Solution) : ℚ :=
  sol.weight + env.values.sum - (env.values.take sol.level).sum

/-- The `while` loop plus fractional tail of
`BranchBoundIntegralityConstraint._calculate_optimistic_estimate`, run over
the remaining `(value, weight)` pairs, carrying the running `solution_weight`:
take each whole item while `solution_weight + weights[j] <= capacity`, then
add `(capacity - solution_weight) * (values[j] / weights[j])` of the first
item that does not fit. -/
def fracFill (capacity : ℚ) : ℚ → List (ℚ × ℚ) → ℚ
  | _, [] => 0
  | sw, (v, w) :: rest =>
    if sw + w ≤ capacity then v + fracFill capacity (sw + w) rest
    else (capacity - sw) * (v / w)

/-- The `(value, weight)` pairs of the sorted items, the parallel arrays
`self.values` / `self.weights` read jointly by the integrality bound. -/
def BnBEnv.pairs (env : BnBEnv) : List (ℚ × ℚ) :=
  env.sorted_items.map fun it => (it.value, it.weight)

/-- `BranchBoundIntegralityConstraint._calculate_optimistic_estimate`:
`0` when `solution.weight > capacity`, otherwise `solution.value` plus the
greedy fractional fill starting at index `j = solution.level`. -/
def estimateIntegrality (env : BnBEnv) (sol : Solution) : ℚ :=
  if env.capacity < sol.weight then 0
  else sol.value + fracFill env.capacity sol.weight (env.pairs.drop sol.level)

/-- `_set_solution`: build the node with a default estimate of `0.0`, then
`_replace` the estimate with `_calculate_optimistic_estimate` of the node. -/
def setSolution (est : BnBEnv → Solution → ℚ) (env : BnBEnv)
    (level : Nat) (value weight : ℚ) (products : List Nat) : Solution :=
  let sol : Solution := ⟨level, value, weight, 0, products⟩
  { sol with optimistic_estimate := est env sol }

/-- `_check_if_room_for_extra_item`: `room = capacity - (weight + new weight)`,
reject exactly when `room < 0`. -/
def checkIfRoomForExtraItem (env : BnBEnv) (new_item : Item) (cur : Solution) : Bool :=
  if env.capacity - (cur.weight + new_item.weight) < 0 then false else true

/-- The solver's mutable state: incumbent (`self.optimal_value`,
`self.optimal_solution`) and frontier (`self.queue`). -/
structure BnBState where
  optimal_value : ℚ
  optimal_solution : Finset Nat
  queue : List Solution

/-- `_check_if_solution_is_best`: raise the incumbent when
`solution.value > self.optimal_value`, storing `set(solution.products)`. -/
def checkIfSolutionIsBest (sol : Solution) (st : BnBState) : BnBState :=
  if sol.value > st.optimal_value then
    { st with optimal_value := sol.value, optimal_solution := sol.products.toFinset }
  else st

/-- `_explore_left`: the include branch.  The new item is
`self.sorted_items[level - 1]` (always in range when called from
`_explore_tree`, where `1 ≤ level ≤ n`).  After the room check, the child is
built, the incumbent possibly updated, and the child enqueued only when its
estimate exceeds the (updated) incumbent value. -/
def exploreLeft (est : BnBEnv → Solution → ℚ) (env : BnBEnv)
    (cur : Solution) (level : Nat) (st : BnBState) : BnBState :=
  let new_item := env.sorted_items.getD (level - 1) default
  if checkIfRoomForExtraItem env new_item cur then
    let products := cur.products ++ [level]
    let sol := setSolution est env level (cur.value + new_item.value)
      (cur.weight + new_item.weight) products
    let st := checkIfSolutionIsBest sol st
    if sol.optimistic_estimate > st.optimal_value then
      { st with queue := st.queue ++ [sol] }
    else st
  else st

/-- `_explore_right`: the exclude branch, same bound/incumbent/enqueue logic
with value, weight and products inherited from the parent. -/
def exploreRight (est : BnBEnv → Solution → ℚ) (env : BnBEnv)
    (cur : Solution) (level : Nat) (st : BnBState) : BnBState :=
  let sol := setSolution est env level cur.value cur.weight cur.products
  let st := checkIfSolutionIsBest sol st
  if sol.optimistic_estimate > st.optimal_value then
    { st with queue := st.queue ++ [sol] }
  else st

/-- `_explore_tree`: branch only below depth `n` and only when the node's
estimate still exceeds the incumbent value. -/
def exploreTree (est : BnBEnv → Solution → ℚ) (env : BnBEnv)
    (sol : Solution) (st : BnBState) : BnBState :=
  if sol.level < env.n then
    if sol.optimistic_estimate > st.optimal_value then
      let level := sol.level + 1
      exploreRight est env sol level (exploreLeft est env sol level st)
    else st
  else st

/-- One iteration of the `while self.queue` loop: `self.queue.pop()` removes
the last element of the Python list, and `_explore_tree` processes it. -/
def bnbStep (est : BnBEnv → Solution → ℚ) (env : BnBEnv) (st : BnBState) : BnBState :=
  match st.queue.getLast? with
  | none => st
  | some sol => exploreTree est env sol { st with queue := st.queue.dropLast }

/-- The `while self.queue` loop, with explicit fuel; `none` means the fuel
ran out before the frontier emptied. -/
def bnbLoop (est : BnBEnv → Solution → ℚ) (env : BnBEnv) :
    Nat → BnBState → Option BnBState
  | 0, st => if st.queue = [] then some st else none
  | fuel + 1, st =>
    if st.queue = [] then some st else bnbLoop est env fuel (bnbStep est env st)

/-- `_get_final_solution`: set `items_selected[index] = 1` for the original
index `self.sorted_items[item - 1].index` of each incumbent level, then
recompute `total_value = sum(vi * xi for (vi, xi) in zip(self.values,
self.items_selected))` — the source zips the SORTED values with the
original-order selection vector. -/
def getFinalSolution (env : BnBEnv) (st : BnBState) : ℚ × List ℚ :=
  let items_selected := (List.range env.n).map fun i =>
    if ∃ l ∈ st.optimal_solution, (env.sorted_items.getD (l - 1) default).index = i
    then (1 : ℚ) else 0
  let total_value := ((env.values.zip items_selected).map fun p => p.1 * p.2).sum
  (total_value, items_selected)

/-- The state `execute` starts from: incumbent `(0, ∅)` and the queue holding
the root `Solution(0, 0, 0, upperbound, [])`. -/
def initState (est : BnBEnv → Solution → ℚ) (env : BnBEnv) : BnBState :=
  let upperbound := est env ⟨0, 0, 0, 0, []⟩
  ⟨0, ∅, [⟨0, 0, 0, upperbound, []⟩]⟩

/-- `execute`: run the loop until the frontier empties, then read off the
final solution.  `3 ^ n + 1` iterations always suffice (proved below), so the
fuelled loop models the unbounded `while`. -/
def executeBnB (est : BnBEnv → Solution → ℚ) (env : BnBEnv) : Option (ℚ × List ℚ) :=
  (bnbLoop est env (3 ^ env.n + 1) (initState est env)).map (getFinalSolution env)

/-- Solver construction (`__init__`, which sorts the items) followed by
`execute`, for a solver class whose bounding strategy is `est`. -/
def solveWith (est : BnBEnv → Solution → ℚ) (items : List Item) (capacity : ℚ) :
    Except Unit (Option (ℚ × List ℚ)) :=
  (sortItems items).map fun sorted => executeBnB est ⟨sorted, capacity⟩

/-- `BranchBoundCapacityConstraintDepthFirst(items, capacity).execute()`. -/
def solveCapacityDepthFirst : List Item → ℚ → Except Unit (Option (ℚ × List ℚ)) :=
  solveWith estimateCapacity

/-- `BranchBoundCapacityConstraintBestFirst(items, capacity).execute()`. -/
def solveCapacityBestFirst : List Item → ℚ → Except Unit (Option (ℚ × List ℚ)) :=
  solveWith estimateCapacity

/-- `BranchBoundIntegralityConstraintDepthFirst(items, capacity).execute()`. -/
def solveIntegralityDepthFirst : List Item → ℚ → Except Unit (Option (ℚ × List ℚ)) :=
  solveWith estimateIntegrality

/-- `BranchBoundIntegralityConstraintBestFirst(items, capacity).execute()`. -/
def solveIntegralityBestFirst : List Item → ℚ → Except Unit (Option (ℚ × List ℚ)) :=
  solveWith estimateIntegrality


/-! ### Concrete runs of the solver

Evaluation lemmas for the concrete instances used by the claims: the item
list is sorted, the loop is run to its final state, and the final solution
is read off.  Each run was checked against the hand-traced behaviour of the
Python code. -/

/-- Sorting the two-item list `[(0, v=1, w=10), (1, v=10, w=1)]` swaps the
items (ratios 1/10 and 10). -/
theorem sortItems_two_swap :
    sortItems [⟨0, 1, 10⟩, ⟨1, 10, 1⟩] = .ok [⟨1, 10, 1⟩, ⟨0, 1, 10⟩] := by
  norm_num [sortItems, List.mergeSort, List.merge]

/-- Loop run for `[(0, v=1, w=10), (1, v=10, w=1)]`, capacity 1, integrality
bound: the incumbent ends at value 10 with level set `{1}`. -/
theorem bnbLoop_two_int :
    bnbLoop estimateIntegrality ⟨[⟨1, 10, 1⟩, ⟨0, 1, 10⟩], 1⟩ (3 ^ (2 : ℕ) + 1)
      (initState estimateIntegrality ⟨[⟨1, 10, 1⟩, ⟨0, 1, 10⟩], 1⟩)
      = some ⟨10, {1}, []⟩ := by
  norm_num [initState, bnbLoop, bnbStep, exploreTree, exploreLeft, exploreRight,
    setSolution, checkIfRoomForExtraItem, checkIfSolutionIsBest,
    estimateIntegrality, fracFill, BnBEnv.pairs, BnBEnv.values, BnBEnv.n]

/-- Final solution for the previous run: level 1 maps back to original index
1, and the returned total zips the sorted values `[10, 1]` with `[0, 1]`,
yielding 1. -/
theorem getFinal_two_int :
    getFinalSolution ⟨[⟨1, 10, 1⟩, ⟨0, 1, 10⟩], 1⟩ ⟨10, {1}, []⟩ = (1, [0, 1]) := by
  norm_num [getFinalSolution, BnBEnv.values, BnBEnv.n, List.range, List.range.loop]

/-- `execute` of the integrality solver on the swapped-ratio instance. -/
theorem executeBnB_two_int :
    executeBnB estimateIntegrality ⟨[⟨1, 10, 1⟩, ⟨0, 1, 10⟩], 1⟩ = some (1, [0, 1]) := by
  have hn : (⟨[⟨1, 10, 1⟩, ⟨0, 1, 10⟩], 1⟩ : BnBEnv).n = 2 := rfl
  rw [executeBnB, hn, bnbLoop_two_int, Option.map]
  simp only [getFinal_two_int]

/-- The lists `[(0, v=10, w=1), (1, v=5, w=5)]` (ratios 10 and 1) and the
three-item variant are already ratio-sorted: sorting leaves them unchanged. -/
theorem sortItems_two_sorted :
    sortItems [⟨0, 10, 1⟩, ⟨1, 5, 5⟩] = .ok [⟨0, 10, 1⟩, ⟨1, 5, 5⟩] := by
  norm_num [sortItems, List.mergeSort, List.merge]

/-- Loop run for `[(0, v=10, w=1), (1, v=5, w=5)]`, capacity 6, capacity
bound: after the first branching the incumbent is 10, the optimal branch
(include both items, value 15) is pruned by the under-estimating bound
`weight + remaining values = 1 + 5 = 6 < 10`, and the run ends at 10. -/
theorem bnbLoop_two_cap :
    bnbLoop estimateCapacity ⟨[⟨0, 10, 1⟩, ⟨1, 5, 5⟩], 6⟩ (3 ^ (2 : ℕ) + 1)
      (initState estimateCapacity ⟨[⟨0, 10, 1⟩, ⟨1, 5, 5⟩], 6⟩)
      = some ⟨10, {1}, []⟩ := by
  norm_num [initState, bnbLoop, bnbStep, exploreTree, exploreLeft, exploreRight,
    setSolution, checkIfRoomForExtraItem, checkIfSolutionIsBest,
    estimateCapacity, BnBEnv.values, BnBEnv.n]

/-- Final solution of the capacity run: selection `[1, 0]`, value 10. -/
theorem getFinal_two_cap :
    getFinalSolution ⟨[⟨0, 10, 1⟩, ⟨1, 5, 5⟩], 6⟩ ⟨10, {1}, []⟩ = (10, [1, 0]) := by
  norm_num [getFinalSolution, BnBEnv.values, BnBEnv.n, List.range, List.range.loop]

/-- `execute` of the capacity solver misses the optimum 15 and returns 10. -/
theorem executeBnB_two_cap :
    executeBnB estimateCapacity ⟨[⟨0, 10, 1⟩, ⟨1, 5, 5⟩], 6⟩ = some (10, [1, 0]) := by
  have hn : (⟨[⟨0, 10, 1⟩, ⟨1, 5, 5⟩], 6⟩ : BnBEnv).n = 2 := rfl
  rw [executeBnB, hn, bnbLoop_two_cap, Option.map]
  simp only [getFinal_two_cap]

/-- Loop run for the same instance with the integrality bound: the optimal
branch survives and the incumbent ends at 15 with level set `{1, 2}`. -/
theorem bnbLoop_two_int6 :
    bnbLoop estimateIntegrality ⟨[⟨0, 10, 1⟩, ⟨1, 5, 5⟩], 6⟩ (3 ^ (2 : ℕ) + 1)
      (initState estimateIntegrality ⟨[⟨0, 10, 1⟩, ⟨1, 5, 5⟩], 6⟩)
      = some ⟨15, {1, 2}, []⟩ := by
  norm_num [initState, bnbLoop, bnbStep, exploreTree, exploreLeft, exploreRight,
    setSolution, checkIfRoomForExtraItem, checkIfSolutionIsBest,
    estimateIntegrality, fracFill, BnBEnv.pairs, BnBEnv.values, BnBEnv.n]

/-- Final solution of the integrality run: selection `[1, 1]`, value 15. -/
theorem getFinal_two_int6 :
    getFinalSolution ⟨[⟨0, 10, 1⟩, ⟨1, 5, 5⟩], 6⟩ ⟨15, {1, 2}, []⟩ = (15, [1, 1]) := by
  norm_num [getFinalSolution, BnBEnv.values, BnBEnv.n, List.range, List.range.loop]

/-- `execute` of the integrality solver returns the true optimum 15. -/
theorem executeBnB_two_int6 :
    executeBnB estimateIntegrality ⟨[⟨0, 10, 1⟩, ⟨1, 5, 5⟩], 6⟩ = some (15, [1, 1]) := by
  have hn : (⟨[⟨0, 10, 1⟩, ⟨1, 5, 5⟩], 6⟩ : BnBEnv).n = 2 := rfl
  rw [executeBnB, hn, bnbLoop_two_int6, Option.map]
  simp only [getFinal_two_int6]

/-- The spec's scenario list is already ratio-sorted
(ratios 2, 2, 15/8, 4/3; the tie keeps input order). -/
theorem sortItems_scenario :
    sortItems [⟨0, 8, 4⟩, ⟨1, 10, 5⟩, ⟨2, 15, 8⟩, ⟨3, 4, 3⟩]
      = .ok [⟨0, 8, 4⟩, ⟨1, 10, 5⟩, ⟨2, 15, 8⟩, ⟨3, 4, 3⟩] := by
  norm_num [sortItems, List.mergeSort, List.merge]

set_option maxRecDepth 8000 in
set_option maxHeartbeats 1000000 in
/-- Scenario loop, integrality bound: the incumbent ends at value 19 with
level set `{3, 4}` (original items 2 and 3). -/
theorem bnbLoop_scenario_int :
    bnbLoop estimateIntegrality ⟨[⟨0, 8, 4⟩, ⟨1, 10, 5⟩, ⟨2, 15, 8⟩, ⟨3, 4, 3⟩], 11⟩
      (3 ^ (4 : ℕ) + 1)
      (initState estimateIntegrality ⟨[⟨0, 8, 4⟩, ⟨1, 10, 5⟩, ⟨2, 15, 8⟩, ⟨3, 4, 3⟩], 11⟩)
      = some ⟨19, {3, 4}, []⟩ := by
  norm_num [initState, bnbLoop, bnbStep, exploreTree, exploreLeft, exploreRight,
    setSolution, checkIfRoomForExtraItem, checkIfSolutionIsBest,
    estimateIntegrality, fracFill, BnBEnv.pairs, BnBEnv.values, BnBEnv.n]
  repeat rw [if_neg (List.cons_ne_nil _ _)]

/-- Scenario final solution, integrality bound: `(19, [0, 0, 1, 1])`. -/
theorem getFinal_scenario_int :
    getFinalSolution ⟨[⟨0, 8, 4⟩, ⟨1, 10, 5⟩, ⟨2, 15, 8⟩, ⟨3, 4, 3⟩], 11⟩ ⟨19, {3, 4}, []⟩
      = (19, [0, 0, 1, 1]) := by
  norm_num [getFinalSolution, BnBEnv.values, BnBEnv.n, List.range, List.range.loop]

/-- Scenario `execute`, integrality bound. -/
theorem executeBnB_scenario_int :
    executeBnB estimateIntegrality ⟨[⟨0, 8, 4⟩, ⟨1, 10, 5⟩, ⟨2, 15, 8⟩, ⟨3, 4, 3⟩], 11⟩
      = some (19, [0, 0, 1, 1]) := by
  have hn : (⟨[⟨0, 8, 4⟩, ⟨1, 10, 5⟩, ⟨2, 15, 8⟩, ⟨3, 4, 3⟩], 11⟩ : BnBEnv).n = 4 := rfl
  rw [executeBnB, hn, bnbLoop_scenario_int, Option.map]
  simp only [getFinal_scenario_int]

set_option maxRecDepth 8000 in
set_option maxHeartbeats 1000000 in
/-- Scenario loop, capacity bound: after the incumbent reaches 15 (sorted
item 3 alone), the branch completing it to the optimum 19 is pruned because
the bound `8 + 4 = 12` is compared against 15; the run ends at value 18 with
level set `{1, 2}`. -/
theorem bnbLoop_scenario_cap :
    bnbLoop estimateCapacity ⟨[⟨0, 8, 4⟩, ⟨1, 10, 5⟩, ⟨2, 15, 8⟩, ⟨3, 4, 3⟩], 11⟩
      (3 ^ (4 : ℕ) + 1)
      (initState estimateCapacity ⟨[⟨0, 8, 4⟩, ⟨1, 10, 5⟩, ⟨2, 15, 8⟩, ⟨3, 4, 3⟩], 11⟩)
      = some ⟨18, {1, 2}, []⟩ := by
  norm_num [initState, bnbLoop, bnbStep, exploreTree, exploreLeft, exploreRight,
    setSolution, checkIfRoomForExtraItem, checkIfSolutionIsBest,
    estimateCapacity, BnBEnv.values, BnBEnv.n]
  repeat rw [if_neg (List.cons_ne_nil _ _)]

/-- Scenario final solution, capacity bound: `(18, [1, 1, 0, 0])`. -/
theorem getFinal_scenario_cap :
    getFinalSolution ⟨[⟨0, 8, 4⟩, ⟨1, 10, 5⟩, ⟨2, 15, 8⟩, ⟨3, 4, 3⟩], 11⟩ ⟨18, {1, 2}, []⟩
      = (18, [1, 1, 0, 0]) := by
  norm_num [getFinalSolution, BnBEnv.values, BnBEnv.n, List.range, List.range.loop]

/-- Scenario `execute`, capacity bound. -/
theorem executeBnB_scenario_cap :
    executeBnB estimateCapacity ⟨[⟨0, 8, 4⟩, ⟨1, 10, 5⟩, ⟨2, 15, 8⟩, ⟨3, 4, 3⟩], 11⟩
      = some (18, [1, 1, 0, 0]) := by
  have hn : (⟨[⟨0, 8, 4⟩, ⟨1, 10, 5⟩, ⟨2, 15, 8⟩, ⟨3, 4, 3⟩], 11⟩ : BnBEnv).n = 4 := rfl
  rw [executeBnB, hn, bnbLoop_scenario_cap, Option.map]
  simp only [getFinal_scenario_cap]

/-- A single item of negative weight is accepted by the sort. -/
theorem sortItems_negative :
    sortItems [⟨0, 1, -1⟩] = .ok [⟨0, 1, -1⟩] := by
  norm_num [sortItems, List.mergeSort]

/-- Loop run for the single negative-weight item, capacity 0: the room check
`0 - (0 + (-1)) < 0` passes and the item is taken, so the incumbent ends at
value 1 with level set `{1}`. -/
theorem bnbLoop_negative :
    bnbLoop estimateIntegrality ⟨[⟨0, 1, -1⟩], 0⟩ (3 ^ (1 : ℕ) + 1)
      (initState estimateIntegrality ⟨[⟨0, 1, -1⟩], 0⟩)
      = some ⟨1, {1}, []⟩ := by
  norm_num [initState, bnbLoop, bnbStep, exploreTree, exploreLeft, exploreRight,
    setSolution, checkIfRoomForExtraItem, checkIfSolutionIsBest,
    estimateIntegrality, fracFill, BnBEnv.pairs, BnBEnv.values, BnBEnv.n]

/-- Final solution of the negative-weight run: `(1, [1])`. -/
theorem getFinal_negative :
    getFinalSolution ⟨[⟨0, 1, -1⟩], 0⟩ ⟨1, {1}, []⟩ = (1, [1]) := by
  norm_num [getFinalSolution, BnBEnv.values, BnBEnv.n, List.range, List.range.loop]

/-- `execute` on the negative-weight item returns a result. -/
theorem executeBnB_negative :
    executeBnB estimateIntegrality ⟨[⟨0, 1, -1⟩], 0⟩ = some (1, [1]) := by
  have hn : (⟨[⟨0, 1, -1⟩], 0⟩ : BnBEnv).n = 1 := rfl
  rw [executeBnB, hn, bnbLoop_negative, Option.map]
  simp only [getFinal_negative]

/-- On `[(0, v=10, w=1), (1, v=5, w=5), (2, v=5, w=5)]`, capacity 11, the
first loop iteration enqueues exactly the node that includes sorted item 1
(value 10, weight 1), whose capacity-relaxation bound is `1 + 10 = 11`. -/
theorem bnbStep_three_cap :
    (bnbStep estimateCapacity ⟨[⟨0, 10, 1⟩, ⟨1, 5, 5⟩, ⟨2, 5, 5⟩], 11⟩
        (initState estimateCapacity ⟨[⟨0, 10, 1⟩, ⟨1, 5, 5⟩, ⟨2, 5, 5⟩], 11⟩)).queue
      = [⟨1, 10, 1, 11, [1]⟩] := by
  norm_num [initState, bnbStep, exploreTree, exploreLeft, exploreRight,
    setSolution, checkIfRoomForExtraItem, checkIfSolutionIsBest,
    estimateCapacity, BnBEnv.values, BnBEnv.n]

/-- The capacity-relaxation bound of that enqueued node is 11. -/
theorem estimateCapacity_three_eval :
    estimateCapacity ⟨[⟨0, 10, 1⟩, ⟨1, 5, 5⟩, ⟨2, 5, 5⟩], 11⟩ ⟨1, 10, 1, 11, [1]⟩ = 11 := by
  norm_num [estimateCapacity, BnBEnv.values]

/-! ### The claims -/

/-- C1.  The claim states that the value returned by `execute` equals the
sum of `value_i * inclusion_i` over the ORIGINAL item ordering.  The code
instead zips the ratio-sorted value array with the original-order inclusion
vector (`zip(self.values, self.items_selected)` in `_get_final_solution`).
On items `[(index 0, v=1, w=10), (index 1, v=10, w=1)]` with capacity 1 the
solver selects original item 1 (inclusion vector `[0, 1]`), whose value over
the original ordering is `1*0 + 10*1 = 10`, yet `execute` returns `1` — the
sorted value array `[10, 1]` zipped against `[0, 1]`. -/
theorem c1_returned_value_mismatch :
    solveIntegralityDepthFirst [⟨0, 1, 10⟩, ⟨1, 10, 1⟩] 1 = .ok (some (1, [0, 1])) ∧
    (((([⟨0, 1, 10⟩, ⟨1, 10, 1⟩] : List Item).map fun it => it.value).zip
        ([0, 1] : List ℚ)).map fun p => p.1 * p.2).sum = 10 ∧
    (1 : ℚ) ≠ 10 := by
  refine ⟨?_, by norm_num [List.zip], by norm_num⟩
  rw [solveIntegralityDepthFirst, solveWith, sortItems_two_swap]
  rw [Except.map]
  simp only [executeBnB_two_int]

/-- C2.  The claim asserts the capacity-relaxation bound is admissible
(`bound ≥` the value of every integral completion of a reachable node).
The bound adds the node's accumulated WEIGHT — not its value — to the
remaining value total, so it under-estimates.  On
`[(0, v=10, w=1), (1, v=5, w=5), (2, v=5, w=5)]` with capacity 11, the node
including only sorted item 1 (value 10, weight 1, weight sums over its level
set and `1 ≤ 11`) is enqueued by the very first loop iteration; its bound is
`1 + 10 = 11`, but completing it with both remaining items (weight
`1 + 5 + 5 = 11 ≤ 11`) is an integral completion of value `10 + 5 + 5 = 20 > 11`. -/
theorem c2_capacity_bound_not_admissible :
    (bnbStep estimateCapacity ⟨[⟨0, 10, 1⟩, ⟨1, 5, 5⟩, ⟨2, 5, 5⟩], 11⟩
        (initState estimateCapacity ⟨[⟨0, 10, 1⟩, ⟨1, 5, 5⟩, ⟨2, 5, 5⟩], 11⟩)).queue
      = [⟨1, 10, 1, 11, [1]⟩] ∧
    ((1 : ℚ) + (5 + 5) ≤ 11 ∧
      estimateCapacity ⟨[⟨0, 10, 1⟩, ⟨1, 5, 5⟩, ⟨2, 5, 5⟩], 11⟩ ⟨1, 10, 1, 11, [1]⟩
        < 10 + (5 + 5)) := by
  refine ⟨bnbStep_three_cap, by norm_num, ?_⟩
  rw [estimateCapacity_three_eval]; norm_num

/-- C3.  The four concrete solver classes do NOT return the same optimal
value on every input: on items `[(0, v=10, w=1), (1, v=5, w=5)]` with
capacity 6 the capacity-relaxation solvers prune the branch leading to the
optimum (their bound under-estimates) and return 10, while the
integrality-relaxation solvers return the true optimum 15.  The depth-first
and best-first variants of each bound agree, because all four classes
inherit the base class loop unchanged. -/
theorem c3_solvers_disagree :
    solveCapacityDepthFirst [⟨0, 10, 1⟩, ⟨1, 5, 5⟩] 6 = .ok (some (10, [1, 0])) ∧
    solveCapacityBestFirst [⟨0, 10, 1⟩, ⟨1, 5, 5⟩] 6 = .ok (some (10, [1, 0])) ∧
    solveIntegralityDepthFirst [⟨0, 10, 1⟩, ⟨1, 5, 5⟩] 6 = .ok (some (15, [1, 1])) ∧
    solveIntegralityBestFirst [⟨0, 10, 1⟩, ⟨1, 5, 5⟩] 6 = .ok (some (15, [1, 1])) ∧
    (10 : ℚ) ≠ 15 := by
  have hcap : solveWith estimateCapacity [⟨0, 10, 1⟩, ⟨1, 5, 5⟩] 6
      = .ok (some (10, [1, 0])) := by
    rw [solveWith, sortItems_two_sorted, Except.map]
    simp only [executeBnB_two_cap]
  have hint : solveWith estimateIntegrality [⟨0, 10, 1⟩, ⟨1, 5, 5⟩] 6
      = .ok (some (15, [1, 1])) := by
    rw [solveWith, sortItems_two_sorted, Except.map]
    simp only [executeBnB_two_int6]
  exact ⟨hcap, hcap, hint, hint, by norm_num⟩

/-- C5 counterexample.  On the spec's scenario
`[(v=8, w=4), (v=10, w=5), (v=15, w=8), (v=4, w=3)]`, capacity 11, the
capacity-relaxation solver returns value 18 — not 19 — selecting original
items 0 and 1, and the integrality-relaxation solver returns 19 selecting
items 2 and 3, not items 0 and 1 (whose total value is only `8 + 10 = 18`).
So no solver produces the claimed outcome `(19, select {0, 1})`. -/
theorem c5_scenario_counterexample :
    solveCapacityDepthFirst [⟨0, 8, 4⟩, ⟨1, 10, 5⟩, ⟨2, 15, 8⟩, ⟨3, 4, 3⟩] 11
      = .ok (some (18, [1, 1, 0, 0])) ∧
    solveIntegralityDepthFirst [⟨0, 8, 4⟩, ⟨1, 10, 5⟩, ⟨2, 15, 8⟩, ⟨3, 4, 3⟩] 11
      = .ok (some (19, [0, 0, 1, 1])) ∧
    (18 : ℚ) ≠ 19 ∧ ([0, 0, 1, 1] : List ℚ) ≠ [1, 1, 0, 0] := by
  refine ⟨?_, ?_, by norm_num, by simp⟩
  · rw [solveCapacityDepthFirst, solveWith, sortItems_scenario, Except.map]
    simp only [executeBnB_scenario_cap]
  · rw [solveIntegralityDepthFirst, solveWith, sortItems_scenario, Except.map]
    simp only [executeBnB_scenario_int]

/-- C5 amended.  On the scenario the two integrality-relaxation solvers
return optimal value 19 with inclusion vector `[0, 0, 1, 1]` (original items
2 and 3, weights `8 + 3 = 11 ≤ 11`), while the two capacity-relaxation
solvers return 18 with inclusion vector `[1, 1, 0, 0]` (items 0 and 1),
their under-estimating bound having pruned the optimal branch. -/
theorem c5_scenario_all_solvers :
    solveIntegralityDepthFirst [⟨0, 8, 4⟩, ⟨1, 10, 5⟩, ⟨2, 15, 8⟩, ⟨3, 4, 3⟩] 11
      = .ok (some (19, [0, 0, 1, 1])) ∧
    solveIntegralityBestFirst [⟨0, 8, 4⟩, ⟨1, 10, 5⟩, ⟨2, 15, 8⟩, ⟨3, 4, 3⟩] 11
      = .ok (some (19, [0, 0, 1, 1])) ∧
    solveCapacityDepthFirst [⟨0, 8, 4⟩, ⟨1, 10, 5⟩, ⟨2, 15, 8⟩, ⟨3, 4, 3⟩] 11
      = .ok (some (18, [1, 1, 0, 0])) ∧
    solveCapacityBestFirst [⟨0, 8, 4⟩, ⟨1, 10, 5⟩, ⟨2, 15, 8⟩, ⟨3, 4, 3⟩] 11
      = .ok (some (18, [1, 1, 0, 0])) := by
  have hint : solveWith estimateIntegrality
      [⟨0, 8, 4⟩, ⟨1, 10, 5⟩, ⟨2, 15, 8⟩, ⟨3, 4, 3⟩] 11 = .ok (some (19, [0, 0, 1, 1])) := by
    rw [solveWith, sortItems_scenario, Except.map]
    simp only [executeBnB_scenario_int]
  have hcap : solveWith estimateCapacity
      [⟨0, 8, 4⟩, ⟨1, 10, 5⟩, ⟨2, 15, 8⟩, ⟨3, 4, 3⟩] 11 = .ok (some (18, [1, 1, 0, 0])) := by
    rw [solveWith, sortItems_scenario, Except.map]
    simp only [executeBnB_scenario_cap]
  exact ⟨hint, hint, hcap, hcap⟩

/-- C8 counterexample.  An item of negative weight is NOT rejected: on the
single item `(index 0, v=1, w=-1)` with capacity 0, solver construction
succeeds (the ratio is just negative) and `execute` produces the result
`(1, [1])`, contradicting the claim that preprocessing fails for negative
weights with no search result. -/
theorem c8_negative_weight_not_rejected :
    solveIntegralityDepthFirst [⟨0, 1, -1⟩] 0 = .ok (some (1, [1])) := by
  rw [solveIntegralityDepthFirst, solveWith, sortItems_negative, Except.map]
  simp only [executeBnB_negative]

/-- C8 amended.  If some item has weight exactly zero, solver construction
fails while sorting (evaluating the ratio key `value/weight` divides by
zero) and no search result is produced, whichever bounding strategy the
solver class uses.  Negative weights are not rejected. -/
theorem c8_zero_weight_fails (est : BnBEnv → Solution → ℚ)
    (items : List Item) (capacity : ℚ)
    (h : ∃ it ∈ items, it.weight = 0) :
    solveWith est items capacity = .error () := by
  obtain ⟨it, hmem, hw⟩ := h
  have hall : (items.all fun it => decide (it.weight ≠ 0)) = false := by
    rw [List.all_eq_false]
    exact ⟨it, hmem, by simp [hw]⟩
  rw [solveWith, sortItems, hall]
  rfl

/-- C8 amended, witness: the single item `(0, v=1, w=0)` with capacity 5
makes construction fail with an error. -/
theorem c8_zero_weight_fails_witness :
    solveWith estimateIntegrality [⟨0, 1, 0⟩] 5 = .error () :=
  c8_zero_weight_fails estimateIntegrality [⟨0, 1, 0⟩] 5
    ⟨⟨0, 1, 0⟩, List.mem_singleton.2 rfl, rfl⟩

/-! ### Admissibility of the integrality-relaxation bound (C4)

The greedy fractional fill over a ratio-descending item list dominates the
value of every feasible integral selection of the remaining items. -/

/-- The fractional fill as a function of the remaining room `R = capacity -
solution_weight`, a proof-friendly reformulation of `fracFill`. -/
def fracRoom : ℚ → List (ℚ × ℚ) → ℚ
  | _, [] => 0
  | R, (v, w) :: rest =>
    if w ≤ R then v + fracRoom (R - w) rest
    else R * (v / w)

theorem fracFill_eq_fracRoom (capacity : ℚ) :
    ∀ (l : List (ℚ × ℚ)) (sw : ℚ), fracFill capacity sw l = fracRoom (capacity - sw) l := by
  intro l
  induction l with
  | nil => intro sw; rfl
  | cons p rest ih =>
    intro sw
    obtain ⟨v, w⟩ := p
    simp only [fracFill, fracRoom]
    by_cases hc : sw + w ≤ capacity
    · rw [if_pos hc, if_pos (by linarith), ih]
      have h : capacity - (sw + w) = capacity - sw - w := by ring
      rw [h]
    · rw [if_neg hc, if_neg (by intro h; exact hc (by linarith))]

/-- The fractional fill of items whose value/weight ratios are at most `ρ`
is at most `ρ` times the room. -/
theorem fracRoom_le_mul {ρ : ℚ} (hρ : 0 ≤ ρ) :
    ∀ (l : List (ℚ × ℚ)) (R : ℚ), (∀ p ∈ l, 0 < p.2) → (∀ p ∈ l, p.1 ≤ ρ * p.2) →
      0 ≤ R → fracRoom R l ≤ ρ * R := by
  intro l
  induction l with
  | nil => intro R _ _ hR; simpa [fracRoom] using mul_nonneg hρ hR
  | cons p rest ih =>
    intro R hw hr hR
    obtain ⟨v, w⟩ := p
    have hw0 : 0 < w := hw (v, w) (List.mem_cons_self _ _)
    have hvr : v ≤ ρ * w := hr (v, w) (List.mem_cons_self _ _)
    simp only [fracRoom]
    by_cases hc : w ≤ R
    · rw [if_pos hc]
      have hrest := ih (R - w) (fun p hp => hw p (List.mem_cons_of_mem _ hp))
        (fun p hp => hr p (List.mem_cons_of_mem _ hp)) (by linarith)
      linarith [hrest]
    · rw [if_neg hc]
      have hdw : v / w ≤ ρ := by
        rw [div_le_iff₀ hw0]; linarith
      calc R * (v / w) ≤ R * ρ := mul_le_mul_of_nonneg_left hdw hR
        _ = ρ * R := mul_comm _ _

/-- Enlarging the room raises the fractional fill by at most `ρ` times the
extra room, when all ratios are at most `ρ`. -/
theorem fracRoom_lipschitz {ρ : ℚ} (hρ : 0 ≤ ρ) :
    ∀ (l : List (ℚ × ℚ)) (Ra Rb : ℚ), (∀ p ∈ l, 0 < p.2) → (∀ p ∈ l, p.1 ≤ ρ * p.2) →
      0 ≤ Ra → Ra ≤ Rb → fracRoom Rb l ≤ fracRoom Ra l + ρ * (Rb - Ra) := by
  intro l
  induction l with
  | nil =>
    intro Ra Rb _ _ _ hab
    simp only [fracRoom]
    nlinarith
  | cons p rest ih =>
    intro Ra Rb hw hr hRa hab
    obtain ⟨v, w⟩ := p
    have hw0 : 0 < w := hw (v, w) (List.mem_cons_self _ _)
    have hvr : v ≤ ρ * w := hr (v, w) (List.mem_cons_self _ _)
    have hw' : ∀ p ∈ rest, 0 < p.2 := fun p hp => hw p (List.mem_cons_of_mem _ hp)
    have hr' : ∀ p ∈ rest, p.1 ≤ ρ * p.2 := fun p hp => hr p (List.mem_cons_of_mem _ hp)
    simp only [fracRoom]
    by_cases hca : w ≤ Ra
    · rw [if_pos hca, if_pos (by linarith)]
      have := ih (Ra - w) (Rb - w) hw' hr' (by linarith) (by linarith)
      have harith : Rb - w - (Ra - w) = Rb - Ra := by ring
      rw [harith] at this
      linarith
    · by_cases hcb : w ≤ Rb
      · rw [if_neg hca, if_pos hcb]
        have hfill := fracRoom_le_mul hρ rest (Rb - w) hw' hr' (by linarith)
        have hkey : 0 ≤ (w - Ra) * (ρ * w - v) :=
          mul_nonneg (by linarith) (by linarith)
        have hdiv : v - ρ * w + ρ * Ra ≤ Ra * (v / w) := by
          rw [← mul_div_assoc, le_div_iff₀ hw0]
          nlinarith
        linarith
      · rw [if_neg hca, if_neg hcb]
        have hdw : v / w ≤ ρ := by
          rw [div_le_iff₀ hw0]; linarith
        nlinarith [mul_le_mul_of_nonneg_right hdw (by linarith : (0:ℚ) ≤ Rb - Ra)]

/-- A list of items whose ratios are at most `ρ` has total value at most
`ρ` times its total weight. -/
theorem sum_fst_le_mul_sum_snd {ρ : ℚ} :
    ∀ S : List (ℚ × ℚ), (∀ p ∈ S, 0 < p.2) → (∀ p ∈ S, p.1 ≤ ρ * p.2) →
      (S.map Prod.fst).sum ≤ ρ * (S.map Prod.snd).sum := by
  intro S
  induction S with
  | nil => simp
  | cons p rest ih =>
    intro hw hr
    obtain ⟨v, w⟩ := p
    have hvr : v ≤ ρ * w := hr (v, w) (List.mem_cons_self _ _)
    have := ih (fun p hp => hw p (List.mem_cons_of_mem _ hp))
      (fun p hp => hr p (List.mem_cons_of_mem _ hp))
    simp only [List.map_cons, List.sum_cons]
    nlinarith

theorem sum_snd_nonneg :
    ∀ S : List (ℚ × ℚ), (∀ p ∈ S, 0 < p.2) → 0 ≤ (S.map Prod.snd).sum := by
  intro S
  induction S with
  | nil => simp
  | cons p rest ih =>
    intro hw
    have h0 := hw p (List.mem_cons_self _ _)
    have := ih (fun q hq => hw q (List.mem_cons_of_mem _ hq))
    simp only [List.map_cons, List.sum_cons]
    linarith

/-- Admissibility of the greedy fractional fill: over a ratio-descending
list of positive-weight, non-negative-value items, any selection of items
(a sublist) that fits in the room `R` has total value at most the fill. -/
theorem fracRoom_ge_sublist :
    ∀ (l : List (ℚ × ℚ)) (R : ℚ) (S : List (ℚ × ℚ)),
      l.Pairwise (fun a b => b.1 / b.2 ≤ a.1 / a.2) →
      (∀ p ∈ l, 0 < p.2) → (∀ p ∈ l, 0 ≤ p.1) → 0 ≤ R →
      S.Sublist l → (S.map Prod.snd).sum ≤ R →
      (S.map Prod.fst).sum ≤ fracRoom R l := by
  intro l
  induction l with
  | nil =>
    intro R S _ _ _ hR hS hfit
    rw [List.sublist_nil.1 hS]
    simp [fracRoom]
  | cons p rest ih =>
    intro R S hsort hw hv hR hS hfit
    obtain ⟨v, w⟩ := p
    have hw0 : 0 < w := hw (v, w) (List.mem_cons_self _ _)
    have hv0 : 0 ≤ v := hv (v, w) (List.mem_cons_self _ _)
    have hρ : 0 ≤ v / w := div_nonneg hv0 hw0.le
    have hw' : ∀ q ∈ rest, 0 < q.2 := fun q hq => hw q (List.mem_cons_of_mem _ hq)
    have hv' : ∀ q ∈ rest, 0 ≤ q.1 := fun q hq => hv q (List.mem_cons_of_mem _ hq)
    have hhead := (List.pairwise_cons.1 hsort).1
    have hrest := (List.pairwise_cons.1 hsort).2
    have hr' : ∀ q ∈ rest, q.1 ≤ (v / w) * q.2 := by
      intro q hq
      have h1 : q.1 / q.2 ≤ v / w := hhead q hq
      have h2 : 0 < q.2 := hw' q hq
      calc q.1 = q.1 / q.2 * q.2 := by field_simp
        _ ≤ v / w * q.2 := mul_le_mul_of_nonneg_right h1 h2.le
    simp only [fracRoom]
    rcases List.sublist_cons_iff.1 hS with hSrest | ⟨S', rfl, hS'⟩
    · -- the selection skips the head item
      by_cases hc : w ≤ R
      · rw [if_pos hc]
        have h1 := ih R S hrest hw' hv' hR hSrest hfit
        have h2 := fracRoom_lipschitz hρ rest (R - w) R hw' hr' (by linarith) (by linarith)
        have h3 : v / w * (R - (R - w)) = v := by field_simp
        nlinarith
      · rw [if_neg hc]
        have h1 := sum_fst_le_mul_sum_snd S
          (fun q hq => hw' q (hSrest.subset hq)) (fun q hq => hr' q (hSrest.subset hq))
        have h2 := sum_snd_nonneg S (fun q hq => hw' q (hSrest.subset hq))
        nlinarith [mul_le_mul_of_nonneg_left hfit hρ]
    · -- the selection takes the head item
      have hfit' : (S'.map Prod.snd).sum ≤ R - w := by
        simp only [List.map_cons, List.sum_cons] at hfit
        linarith
      have hpos' := sum_snd_nonneg S' (fun q hq => hw' q (hS'.subset hq))
      have hc : w ≤ R := by linarith
      rw [if_pos hc]
      have h1 := ih (R - w) S' hrest hw' hv' (by linarith) hS' hfit'
      simp only [List.map_cons, List.sum_cons]
      linarith

/-- C4.  Over the solver's ratio-sorted arrays (positive weights,
non-negative values), the integrality-relaxation bound of a node whose
accumulated value and weight are as recorded is admissible: it is `0` when
the node exceeds capacity, and otherwise dominates `value + completion
value` for every selection `S` of remaining sorted items (a sublist of the
items from index `level` on) that still fits, i.e. with
`weight + total weight of S ≤ capacity`. -/
theorem c4_integrality_bound_admissible (env : BnBEnv)
    (hsort : env.sorted_items.Pairwise fun a b => b.value / b.weight ≤ a.value / a.weight)
    (hwpos : ∀ it ∈ env.sorted_items, 0 < it.weight)
    (hvnn : ∀ it ∈ env.sorted_items, 0 ≤ it.value)
    (sol : Solution) :
    (env.capacity < sol.weight → estimateIntegrality env sol = 0) ∧
    (sol.weight ≤ env.capacity →
      ∀ S : List Item, S.Sublist (env.sorted_items.drop sol.level) →
        sol.weight + (S.map fun it => it.weight).sum ≤ env.capacity →
        sol.value + (S.map fun it => it.value).sum ≤ estimateIntegrality env sol) := by
  constructor
  · intro h
    rw [estimateIntegrality, if_pos h]
  · intro hwc S hS hfit
    rw [estimateIntegrality, if_neg (not_lt.2 hwc),
      fracFill_eq_fracRoom env.capacity _ sol.weight]
    have hdrop : env.pairs.drop sol.level
        = (env.sorted_items.drop sol.level).map fun it => (it.value, it.weight) := by
      rw [BnBEnv.pairs, List.map_drop]
    have hS' : (S.map fun it => (it.value, it.weight)).Sublist (env.pairs.drop sol.level) := by
      rw [hdrop]; exact hS.map _
    have hsort' : (env.pairs.drop sol.level).Pairwise
        (fun a b => b.1 / b.2 ≤ a.1 / a.2) := by
      rw [hdrop]
      exact (List.pairwise_map.2 (hsort.sublist (List.drop_sublist _ _)))
    have hwmem : ∀ p ∈ env.pairs.drop sol.level, 0 < p.2 := by
      rw [hdrop]
      intro p hp
      obtain ⟨it, hit, rfl⟩ := List.mem_map.1 hp
      exact hwpos it (List.mem_of_mem_drop hit)
    have hvmem : ∀ p ∈ env.pairs.drop sol.level, 0 ≤ p.1 := by
      rw [hdrop]
      intro p hp
      obtain ⟨it, hit, rfl⟩ := List.mem_map.1 hp
      exact hvnn it (List.mem_of_mem_drop hit)
    have hmain := fracRoom_ge_sublist (env.pairs.drop sol.level)
      (env.capacity - sol.weight) (S.map fun it => (it.value, it.weight))
      hsort' hwmem hvmem (by linarith) hS' ?_
    · have hfst : ((S.map fun it => (it.value, it.weight)).map Prod.fst)
          = S.map fun it => it.value := by
        rw [List.map_map]; rfl
      rw [hfst] at hmain
      linarith
    · have hsnd : ((S.map fun it => (it.value, it.weight)).map Prod.snd)
          = S.map fun it => it.weight := by
        rw [List.map_map]; rfl
      rw [hsnd]
      linarith

theorem c4_integrality_bound_admissible_witness :
    (0 : ℚ) + (([⟨1, 2, 2⟩] : List Item).map fun it => it.value).sum
      ≤ estimateIntegrality ⟨[⟨0, 3, 1⟩, ⟨1, 2, 2⟩], 2⟩ ⟨0, 0, 0, 0, []⟩ :=
  (c4_integrality_bound_admissible ⟨[⟨0, 3, 1⟩, ⟨1, 2, 2⟩], 2⟩
      (by norm_num [List.pairwise_cons])
      (by norm_num [List.forall_mem_cons])
      (by norm_num [List.forall_mem_cons])
      ⟨0, 0, 0, 0, []⟩).2 (by norm_num) [⟨1, 2, 2⟩]
    (List.Sublist.cons _ (List.Sublist.refl _))
    (by norm_num)

/-! ### Search invariants

Every node the engine ever constructs records its included levels in
`products`, and its `value`/`weight` fields are the corresponding sums; the
include branch is guarded by the room check, so every node in the frontier
and every incumbent stays within capacity. -/

/-- A well-formed node: depth within range, `products` a strictly increasing
list of levels in `[1, level]`, `value`/`weight` the sums of the sorted
values/weights of those levels, and the weight within capacity. -/
def GoodSol (env : BnBEnv) (s : Solution) : Prop :=
  s.level ≤ env.n ∧
  s.products.Chain' (· < ·) ∧
  (∀ l ∈ s.products, 1 ≤ l ∧ l ≤ s.level) ∧
  s.value = (s.products.map fun l => env.values.getD (l - 1) 0).sum ∧
  s.weight = (s.products.map fun l => env.weights.getD (l - 1) 0).sum ∧
  s.weight ≤ env.capacity

/-- The engine invariant: every pending node is well-formed and the
incumbent is the value and level set of some well-formed node. -/
def InvState (env : BnBEnv) (st : BnBState) : Prop :=
  (∀ s ∈ st.queue, GoodSol env s) ∧
  ∃ s, GoodSol env s ∧ st.optimal_value = s.value ∧ st.optimal_solution = s.products.toFinset

theorem values_getD (env : BnBEnv) (i : Nat) (h : i < env.n) :
    env.values.getD i 0 = (env.sorted_items.getD i default).value := by
  have h' : i < env.sorted_items.length := h
  simp [BnBEnv.values, List.getD_eq_getElem?_getD, List.getElem?_eq_getElem h',
    List.getElem?_map]

theorem weights_getD (env : BnBEnv) (i : Nat) (h : i < env.n) :
    env.weights.getD i 0 = (env.sorted_items.getD i default).weight := by
  have h' : i < env.sorted_items.length := h
  simp [BnBEnv.weights, List.getD_eq_getElem?_getD, List.getElem?_eq_getElem h',
    List.getElem?_map]

theorem checkIfRoom_true_iff (env : BnBEnv) (it : Item) (cur : Solution) :
    checkIfRoomForExtraItem env it cur = true ↔
      cur.weight + it.weight ≤ env.capacity := by
  rw [checkIfRoomForExtraItem]
  split
  · rename_i h
    simp only [Bool.false_eq_true, false_iff]
    intro hc
    linarith
  · rename_i h
    simp only [true_iff]
    linarith [not_lt.1 h]

theorem setSolution_level (est : BnBEnv → Solution → ℚ) (env : BnBEnv)
    (level : Nat) (value weight : ℚ) (products : List Nat) :
    (setSolution est env level value weight products).level = level := rfl

theorem setSolution_value (est : BnBEnv → Solution → ℚ) (env : BnBEnv)
    (level : Nat) (value weight : ℚ) (products : List Nat) :
    (setSolution est env level value weight products).value = value := rfl

theorem setSolution_weight (est : BnBEnv → Solution → ℚ) (env : BnBEnv)
    (level : Nat) (value weight : ℚ) (products : List Nat) :
    (setSolution est env level value weight products).weight = weight := rfl

theorem setSolution_products (est : BnBEnv → Solution → ℚ) (env : BnBEnv)
    (level : Nat) (value weight : ℚ) (products : List Nat) :
    (setSolution est env level value weight products).products = products := rfl

/-- The include child built by `_explore_left` is well-formed: its level set
grows by the next level, its sums extend accordingly, and the room check
keeps it within capacity. -/
theorem goodSol_include_child (est : BnBEnv → Solution → ℚ) (env : BnBEnv)
    (cur : Solution) (hcur : GoodSol env cur) (hlev : cur.level < env.n)
    (hroom : checkIfRoomForExtraItem env (env.sorted_items.getD cur.level default) cur
      = true) :
    GoodSol env (setSolution est env (cur.level + 1)
      (cur.value + (env.sorted_items.getD cur.level default).value)
      (cur.weight + (env.sorted_items.getD cur.level default).weight)
      (cur.products ++ [cur.level + 1])) := by
  obtain ⟨h1, h2, h3, h4, h5, h6⟩ := hcur
  refine ⟨hlev, ?_, ?_, ?_, ?_, ?_⟩
  · rw [setSolution_products]
    rw [List.chain'_append]
    refine ⟨h2, List.chain'_singleton _, ?_⟩
    intro x hx y hy
    simp only [List.head?_cons, Option.mem_def, Option.some.injEq] at hy
    subst hy
    have hxmem : x ∈ cur.products := List.mem_of_getLast?_eq_some hx
    exact Nat.lt_succ_of_le (h3 x hxmem).2
  · rw [setSolution_products, setSolution_level]
    intro l hl
    rcases List.mem_append.1 hl with h | h
    · exact ⟨(h3 l h).1, Nat.le_succ_of_le (h3 l h).2⟩
    · rw [List.mem_singleton.1 h]
      exact ⟨Nat.succ_le_succ (Nat.zero_le _), Nat.le_refl _⟩
  · rw [setSolution_value, setSolution_products, List.map_append, List.sum_append]
    simp only [List.map_cons, List.map_nil, List.sum_cons, List.sum_nil, add_zero,
      Nat.add_sub_cancel]
    rw [h4, values_getD env cur.level hlev]
  · rw [setSolution_weight, setSolution_products, List.map_append, List.sum_append]
    simp only [List.map_cons, List.map_nil, List.sum_cons, List.sum_nil, add_zero,
      Nat.add_sub_cancel]
    rw [h5, weights_getD env cur.level hlev]
  · rw [setSolution_weight]
    exact (checkIfRoom_true_iff env _ cur).1 hroom

/-- The exclude child built by `_explore_right` is well-formed: everything
is inherited, only the level advances. -/
theorem goodSol_exclude_child (est : BnBEnv → Solution → ℚ) (env : BnBEnv)
    (cur : Solution) (hcur : GoodSol env cur) (hlev : cur.level < env.n) :
    GoodSol env (setSolution est env (cur.level + 1) cur.value cur.weight cur.products) := by
  obtain ⟨h1, h2, h3, h4, h5, h6⟩ := hcur
  exact ⟨hlev, h2, fun l hl => ⟨(h3 l hl).1, Nat.le_succ_of_le (h3 l hl).2⟩, h4, h5, h6⟩

theorem checkIfSolutionIsBest_queue (sol : Solution) (st : BnBState) :
    (checkIfSolutionIsBest sol st).queue = st.queue := by
  rw [checkIfSolutionIsBest]; split <;> rfl

theorem checkIfSolutionIsBest_inv (env : BnBEnv) (sol : Solution) (st : BnBState)
    (hInv : InvState env st) (hsol : GoodSol env sol) :
    InvState env (checkIfSolutionIsBest sol st) := by
  rw [checkIfSolutionIsBest]
  split
  · exact ⟨fun s hs => hInv.1 s hs, ⟨sol, hsol, rfl, rfl⟩⟩
  · exact hInv

theorem inv_enqueue (env : BnBEnv) (st : BnBState) (sol : Solution)
    (hInv : InvState env st) (hsol : GoodSol env sol) :
    InvState env { st with queue := st.queue ++ [sol] } := by
  refine ⟨?_, hInv.2⟩
  intro s hs
  rcases List.mem_append.1 hs with h | h
  · exact hInv.1 s h
  · rw [List.mem_singleton.1 h]; exact hsol

/-- The common tail of both explore functions: update the incumbent, then
enqueue the node when its estimate beats the (updated) incumbent value. -/
theorem explore_tail_inv (env : BnBEnv) (sol : Solution) (st : BnBState)
    (hInv : InvState env st) (hsol : GoodSol env sol) :
    InvState env
      (if sol.optimistic_estimate > (checkIfSolutionIsBest sol st).optimal_value then
        { checkIfSolutionIsBest sol st with
            queue := (checkIfSolutionIsBest sol st).queue ++ [sol] }
      else checkIfSolutionIsBest sol st) := by
  have hInv' := checkIfSolutionIsBest_inv env sol st hInv hsol
  split
  · exact inv_enqueue env _ _ hInv' hsol
  · exact hInv'

theorem exploreLeft_inv (est : BnBEnv → Solution → ℚ) (env : BnBEnv)
    (cur : Solution) (st : BnBState) (hInv : InvState env st)
    (hcur : GoodSol env cur) (hlev : cur.level < env.n) :
    InvState env (exploreLeft est env cur (cur.level + 1) st) := by
  rw [exploreLeft]
  split
  · rename_i hroom
    have hroom' : checkIfRoomForExtraItem env
        (env.sorted_items.getD cur.level default) cur = true := by
      simpa [Nat.add_sub_cancel] using hroom
    have hchild := goodSol_include_child est env cur hcur hlev hroom'
    have hchild' : GoodSol env (setSolution est env (cur.level + 1)
        (cur.value + (env.sorted_items.getD (cur.level + 1 - 1) default).value)
        (cur.weight + (env.sorted_items.getD (cur.level + 1 - 1) default).weight)
        (cur.products ++ [cur.level + 1])) := by
      simpa [Nat.add_sub_cancel] using hchild
    exact explore_tail_inv env _ st hInv hchild'
  · exact hInv

theorem exploreRight_inv (est : BnBEnv → Solution → ℚ) (env : BnBEnv)
    (cur : Solution) (st : BnBState) (hInv : InvState env st)
    (hcur : GoodSol env cur) (hlev : cur.level < env.n) :
    InvState env (exploreRight est env cur (cur.level + 1) st) := by
  rw [exploreRight]
  exact explore_tail_inv env _ st hInv (goodSol_exclude_child est env cur hcur hlev)

theorem exploreTree_inv (est : BnBEnv → Solution → ℚ) (env : BnBEnv)
    (sol : Solution) (st : BnBState) (hInv : InvState env st)
    (hsol : GoodSol env sol) :
    InvState env (exploreTree est env sol st) := by
  rw [exploreTree]
  split
  · rename_i hlev
    split
    · exact exploreRight_inv est env sol _ (exploreLeft_inv est env sol st hInv hsol hlev)
        hsol hlev
    · exact hInv
  · exact hInv

theorem bnbStep_inv (est : BnBEnv → Solution → ℚ) (env : BnBEnv) (st : BnBState)
    (hInv : InvState env st) : InvState env (bnbStep est env st) := by
  rw [bnbStep]
  cases hq : st.queue.getLast? with
  | none => exact hInv
  | some sol =>
    have hsol : sol ∈ st.queue := List.mem_of_getLast?_eq_some hq
    have hdrop : InvState env { st with queue := st.queue.dropLast } :=
      ⟨fun s hs => hInv.1 s ((List.dropLast_sublist st.queue).subset hs), hInv.2⟩
    exact exploreTree_inv est env sol _ hdrop (hInv.1 sol hsol)

theorem bnbLoop_inv (est : BnBEnv → Solution → ℚ) (env : BnBEnv) :
    ∀ (fuel : Nat) (st st' : BnBState), InvState env st →
      bnbLoop est env fuel st = some st' → InvState env st' := by
  intro fuel
  induction fuel with
  | zero =>
    intro st st' hInv hrun
    rw [bnbLoop] at hrun
    split at hrun
    · cases hrun; exact hInv
    · cases hrun
  | succ fuel ih =>
    intro st st' hInv hrun
    rw [bnbLoop] at hrun
    split at hrun
    · cases hrun; exact hInv
    · exact ih _ _ (bnbStep_inv est env st hInv) hrun

theorem initState_inv (est : BnBEnv → Solution → ℚ) (env : BnBEnv)
    (hcap : 0 ≤ env.capacity) : InvState env (initState est env) := by
  have hroot : GoodSol env ⟨0, 0, 0, est env ⟨0, 0, 0, 0, []⟩, []⟩ :=
    ⟨Nat.zero_le _, List.chain'_nil, by simp, by simp, by simp, hcap⟩
  refine ⟨?_, ⟨⟨0, 0, 0, est env ⟨0, 0, 0, 0, []⟩, []⟩, hroot, rfl, rfl⟩⟩
  intro s hs
  rw [initState] at hs
  rw [List.mem_singleton.1 hs]
  exact hroot

/-- C10.  With a non-negative capacity, at every point of the run (the
`k`-th loop iteration, `bnbStep` iterated from the initial state) every node
in the frontier satisfies `weight ≤ capacity` — so the integrality bound of
an enqueued node is never computed through its infeasibility branch — and
the incumbent value is the value of a well-formed within-capacity node.
The root has weight 0, an include child is built only after the room check,
and an exclude child inherits its parent's weight. -/
theorem c10_frontier_within_capacity (env : BnBEnv) (hcap : 0 ≤ env.capacity) (k : Nat) :
    (∀ s ∈ ((bnbStep estimateIntegrality env)^[k]
        (initState estimateIntegrality env)).queue,
      s.weight ≤ env.capacity ∧
      estimateIntegrality env s
        = s.value + fracFill env.capacity s.weight (env.pairs.drop s.level)) ∧
    ∃ sol, GoodSol env sol ∧
      ((bnbStep estimateIntegrality env)^[k]
        (initState estimateIntegrality env)).optimal_value = sol.value := by
  have hInv : InvState env
      ((bnbStep estimateIntegrality env)^[k] (initState estimateIntegrality env)) := by
    induction k with
    | zero => simpa using initState_inv estimateIntegrality env hcap
    | succ k ih =>
      rw [Function.iterate_succ_apply']
      exact bnbStep_inv estimateIntegrality env _ ih
  constructor
  · intro s hs
    have hgood := hInv.1 s hs
    refine ⟨hgood.2.2.2.2.2, ?_⟩
    rw [estimateIntegrality, if_neg (not_lt.2 hgood.2.2.2.2.2)]
  · obtain ⟨sol, hgood, hov, -⟩ := hInv.2
    exact ⟨sol, hgood, hov⟩

/-- C10, witness at the empty environment after zero iterations. -/
theorem c10_frontier_within_capacity_witness :
    (∀ s ∈ ((bnbStep estimateIntegrality ⟨[], 0⟩)^[0]
        (initState estimateIntegrality ⟨[], 0⟩)).queue,
      s.weight ≤ (⟨[], 0⟩ : BnBEnv).capacity ∧
      estimateIntegrality ⟨[], 0⟩ s
        = s.value + fracFill (⟨[], 0⟩ : BnBEnv).capacity s.weight
            ((⟨[], 0⟩ : BnBEnv).pairs.drop s.level)) ∧
    ∃ sol, GoodSol ⟨[], 0⟩ sol ∧
      ((bnbStep estimateIntegrality ⟨[], 0⟩)^[0]
        (initState estimateIntegrality ⟨[], 0⟩)).optimal_value = sol.value :=
  c10_frontier_within_capacity ⟨[], 0⟩ (le_refl 0) 0

/-! ### Feasibility of the returned selection (C6) -/

/-- Sum of pairwise products of a list zipped with a tabulated list, as a
`Finset.range` sum. -/
theorem zip_range_map_mul_sum :
    ∀ (l : List ℚ) (g : Nat → ℚ) (n : Nat), l.length = n →
      ((l.zip ((List.range n).map g)).map fun p => p.1 * p.2).sum
        = ∑ i ∈ Finset.range n, l.getD i 0 * g i := by
  intro l
  induction l with
  | nil =>
    intro g n hn
    simp [← hn]
  | cons x l ih =>
    intro g n hn
    rcases n with - | m
    · simp at hn
    · have hm : l.length = m := by simpa using hn
      rw [List.range_succ_eq_map, List.map_cons, List.map_map, List.zip_cons_cons,
        List.map_cons, List.sum_cons, ih (g ∘ Nat.succ) m hm,
        Finset.sum_range_succ' (fun i => (x :: l).getD i 0 * g i) m]
      simp only [List.getD_cons_succ, List.getD_cons_zero, Function.comp_apply,
        Nat.succ_eq_add_one]
      ring

/-- The weight, over the original item list, of the inclusion vector that
`_get_final_solution` builds from a well-formed incumbent is at most the
capacity. -/
theorem selection_weight_le (env : BnBEnv) (items : List Item)
    (hperm : env.sorted_items.Perm items)
    (hidx : ∀ (i : Nat) (h : i < items.length), (items.get ⟨i, h⟩).index = i)
    (stF : BnBState) (hInv : InvState env stF) (v : ℚ) (sel : List ℚ)
    (hfin : getFinalSolution env stF = (v, sel)) :
    (((items.map fun it => it.weight).zip sel).map fun p => p.1 * p.2).sum
      ≤ env.capacity := by
  obtain ⟨-, s, hgood, hov, hosol⟩ := hInv
  obtain ⟨hlev, hchain, hbounds, hval, hwt, hcap⟩ := hgood
  have hlenitems : items.length = env.n := hperm.length_eq.symm
  have hsel : sel = (List.range env.n).map fun i =>
      if ∃ l ∈ stF.optimal_solution, (env.sorted_items.getD (l - 1) default).index = i
      then (1 : ℚ) else 0 := by
    have h := congrArg Prod.snd hfin
    simp only [getFinalSolution] at h
    exact h.symm
  rw [hsel, zip_range_map_mul_sum _ _ env.n (by simpa using hlenitems), hosol]
  -- facts about the level-to-original-index mapping
  have hPnodup : s.products.Nodup :=
    (List.chain'_iff_pairwise.1 hchain).imp fun h => Nat.ne_of_lt h
  have hsub1 : ∀ l ∈ s.products, l - 1 < env.sorted_items.length := by
    intro l hl
    have h1 := (hbounds l hl).1
    have h2 := (hbounds l hl).2
    have : l - 1 < env.n := by omega
    exact this
  have hgetD_mem : ∀ l ∈ s.products,
      env.sorted_items.getD (l - 1) default ∈ env.sorted_items := by
    intro l hl
    have h1 := hsub1 l hl
    rw [List.getD_eq_getElem?_getD, List.getElem?_eq_getElem h1]
    exact List.getElem_mem h1
  have hidx_range : items.map Item.index = List.range items.length := by
    apply List.ext_getElem (by simp)
    intro i h1 h2
    simp only [List.getElem_map, List.getElem_range]
    have h3 : i < items.length := by simpa using h1
    have := hidx i h3
    simpa [List.get_eq_getElem] using this
  have hmap_nodup : (env.sorted_items.map Item.index).Nodup := by
    have hp : (env.sorted_items.map Item.index).Perm (items.map Item.index) := hperm.map _
    rw [hidx_range] at hp
    exact hp.nodup_iff.2 (List.nodup_range _)
  have hidx_lt : ∀ l ∈ s.products,
      (env.sorted_items.getD (l - 1) default).index < items.length := by
    intro l hl
    have hmem : (env.sorted_items.getD (l - 1) default).index ∈ items.map Item.index := by
      rw [← List.Perm.mem_iff (hperm.map Item.index)]
      exact List.mem_map_of_mem _ (hgetD_mem l hl)
    rw [hidx_range] at hmem
    exact List.mem_range.1 hmem
  have hW : ∀ it ∈ items, (items.map fun x => x.weight).getD it.index 0 = it.weight := by
    intro it hit
    obtain ⟨j, hj, hget⟩ := List.mem_iff_getElem.1 hit
    have hji : it.index = j := by
      rw [← hget]
      have := hidx j hj
      simpa [List.get_eq_getElem] using this
    rw [hji, List.getD_eq_getElem?_getD, List.getElem?_map, List.getElem?_eq_getElem hj]
    simp [hget]
  have hinj : ∀ l₁ ∈ s.products.toFinset, ∀ l₂ ∈ s.products.toFinset,
      (env.sorted_items.getD (l₁ - 1) default).index
        = (env.sorted_items.getD (l₂ - 1) default).index → l₁ = l₂ := by
    intro l₁ h₁ l₂ h₂ heq
    have hm₁ := List.mem_toFinset.1 h₁
    have hm₂ := List.mem_toFinset.1 h₂
    have hlt₁ : l₁ - 1 < (env.sorted_items.map Item.index).length := by
      simpa using hsub1 l₁ hm₁
    have hlt₂ : l₂ - 1 < (env.sorted_items.map Item.index).length := by
      simpa using hsub1 l₂ hm₂
    have e₁ : (env.sorted_items.map Item.index).get ⟨l₁ - 1, hlt₁⟩
        = (env.sorted_items.getD (l₁ - 1) default).index := by
      rw [List.getD_eq_getElem?_getD, List.getElem?_eq_getElem (hsub1 l₁ hm₁)]
      simp [List.get_eq_getElem, List.getElem_map]
    have e₂ : (env.sorted_items.map Item.index).get ⟨l₂ - 1, hlt₂⟩
        = (env.sorted_items.getD (l₂ - 1) default).index := by
      rw [List.getD_eq_getElem?_getD, List.getElem?_eq_getElem (hsub1 l₂ hm₂)]
      simp [List.get_eq_getElem, List.getElem_map]
    have := hmap_nodup.get_inj_iff.1 (e₁.trans (heq.trans e₂.symm))
    have h11 := (hbounds l₁ hm₁).1
    have h21 := (hbounds l₂ hm₂).1
    have : l₁ - 1 = l₂ - 1 := congrArg Fin.val this
    omega
  calc ∑ i ∈ Finset.range env.n, (items.map fun it => it.weight).getD i 0 *
        (if ∃ l ∈ s.products.toFinset,
          (env.sorted_items.getD (l - 1) default).index = i then (1 : ℚ) else 0)
      = ∑ i ∈ Finset.range env.n,
          (if ∃ l ∈ s.products.toFinset,
            (env.sorted_items.getD (l - 1) default).index = i
          then (items.map fun it => it.weight).getD i 0 else 0) := by
        refine Finset.sum_congr rfl fun i _ => ?_
        split <;> simp
    _ = ∑ i ∈ (Finset.range env.n).filter
          (fun i => ∃ l ∈ s.products.toFinset,
            (env.sorted_items.getD (l - 1) default).index = i),
          (items.map fun it => it.weight).getD i 0 := (Finset.sum_filter _ _).symm
    _ = ∑ i ∈ s.products.toFinset.image
          (fun l => (env.sorted_items.getD (l - 1) default).index),
          (items.map fun it => it.weight).getD i 0 := by
        congr 1
        ext i
        simp only [Finset.mem_filter, Finset.mem_image, Finset.mem_range]
        constructor
        · rintro ⟨-, l, hl, h⟩
          exact ⟨l, hl, h⟩
        · rintro ⟨l, hl, h⟩
          refine ⟨?_, l, hl, h⟩
          rw [← h, ← hlenitems]
          exact hidx_lt l (List.mem_toFinset.1 hl)
    _ = ∑ l ∈ s.products.toFinset,
          (items.map fun it => it.weight).getD
            ((env.sorted_items.getD (l - 1) default).index) 0 :=
        Finset.sum_image hinj
    _ = ∑ l ∈ s.products.toFinset, env.weights.getD (l - 1) 0 := by
        refine Finset.sum_congr rfl fun l hl => ?_
        have hm := List.mem_toFinset.1 hl
        have hit : env.sorted_items.getD (l - 1) default ∈ items :=
          hperm.subset (hgetD_mem l hm)
        rw [hW _ hit, weights_getD env (l - 1) (hsub1 l hm)]
    _ = (s.products.map fun l => env.weights.getD (l - 1) 0).sum :=
        List.sum_toFinset _ hPnodup
    _ = s.weight := hwt.symm
    _ ≤ env.capacity := hcap

/-- C6.  For valid input — positive weights, non-negative capacity, items
indexed by their original positions — the inclusion vector returned by
`execute` is feasible: the sum of `weight_i * inclusion_i` over the original
item ordering is at most the capacity.  This holds for any bounding
strategy `est`, hence for all four solver classes. -/
theorem c6_returned_selection_feasible (est : BnBEnv → Solution → ℚ)
    (items : List Item) (capacity : ℚ)
    (hcap : 0 ≤ capacity)
    (hw : ∀ it ∈ items, 0 < it.weight)
    (hidx : ∀ (i : Nat) (h : i < items.length), (items.get ⟨i, h⟩).index = i)
    (v : ℚ) (sel : List ℚ)
    (hrun : solveWith est items capacity = .ok (some (v, sel))) :
    (((items.map fun it => it.weight).zip sel).map fun p => p.1 * p.2).sum
      ≤ capacity := by
  have hall : (items.all fun it => decide (it.weight ≠ 0)) = true := by
    rw [List.all_eq_true]
    intro it hit
    simpa using ne_of_gt (hw it hit)
  rw [solveWith, sortItems, if_pos hall] at hrun
  simp only [Except.map, Except.ok.injEq] at hrun
  rw [executeBnB] at hrun
  obtain ⟨stF, hloop, hfin⟩ := Option.map_eq_some'.1 hrun
  have hperm : (items.mergeSort fun a b =>
      decide (b.value / b.weight ≤ a.value / a.weight)).Perm items :=
    List.mergeSort_perm items _
  have hInv := bnbLoop_inv est
    ⟨items.mergeSort fun a b => decide (b.value / b.weight ≤ a.value / a.weight), capacity⟩
    _ _ stF
    (initState_inv est
      ⟨items.mergeSort fun a b => decide (b.value / b.weight ≤ a.value / a.weight), capacity⟩
      hcap)
    hloop
  exact selection_weight_le
    ⟨items.mergeSort fun a b => decide (b.value / b.weight ≤ a.value / a.weight), capacity⟩
    items hperm hidx stF hInv v sel hfin

/-- C6, witness on the scenario instance: the returned selection
`[0, 0, 1, 1]` has weight `8*0 + 5*0 + 8*1 + 3*1 = 11 ≤ 11`. -/
theorem c6_returned_selection_feasible_witness :
    (((([⟨0, 8, 4⟩, ⟨1, 10, 5⟩, ⟨2, 15, 8⟩, ⟨3, 4, 3⟩] : List Item).map
        fun it => it.weight).zip ([0, 0, 1, 1] : List ℚ)).map
        fun p => p.1 * p.2).sum ≤ 11 :=
  c6_returned_selection_feasible estimateIntegrality
    [⟨0, 8, 4⟩, ⟨1, 10, 5⟩, ⟨2, 15, 8⟩, ⟨3, 4, 3⟩] 11
    (by norm_num)
    (by norm_num [List.forall_mem_cons])
    (by
      intro i h
      simp only [List.length_cons, List.length_nil] at h
      interval_cases i <;> rfl)
    19 [0, 0, 1, 1]
    (by
      rw [solveWith, sortItems_scenario, Except.map]
      simp only [executeBnB_scenario_int])

/-! ### The frontier is a LIFO stack (C7) -/

/-- The queue after the common explore tail is the old queue, possibly with
the new node appended at the end. -/
theorem explore_tail_queue_cases (sol : Solution) (st : BnBState) :
    (if sol.optimistic_estimate > (checkIfSolutionIsBest sol st).optimal_value then
        { checkIfSolutionIsBest sol st with
            queue := (checkIfSolutionIsBest sol st).queue ++ [sol] }
      else checkIfSolutionIsBest sol st).queue = st.queue ∨
    (if sol.optimistic_estimate > (checkIfSolutionIsBest sol st).optimal_value then
        { checkIfSolutionIsBest sol st with
            queue := (checkIfSolutionIsBest sol st).queue ++ [sol] }
      else checkIfSolutionIsBest sol st).queue = st.queue ++ [sol] := by
  split
  · right; rw [checkIfSolutionIsBest_queue]
  · left; rw [checkIfSolutionIsBest_queue]

/-- `_explore_left` either leaves the frontier unchanged or appends one node
at depth `level` to its end. -/
theorem exploreLeft_queue_cases (est : BnBEnv → Solution → ℚ) (env : BnBEnv)
    (cur : Solution) (level : Nat) (st : BnBState) :
    (exploreLeft est env cur level st).queue = st.queue ∨
    ∃ sol : Solution, sol.level = level ∧
      (exploreLeft est env cur level st).queue = st.queue ++ [sol] := by
  rw [exploreLeft]
  split
  · rcases explore_tail_queue_cases
        (setSolution est env level
          (cur.value + (env.sorted_items.getD (level - 1) default).value)
          (cur.weight + (env.sorted_items.getD (level - 1) default).weight)
          (cur.products ++ [level])) st with h | h
    · exact Or.inl h
    · exact Or.inr ⟨_, setSolution_level est env level _ _ _, h⟩
  · exact Or.inl rfl

/-- `_explore_right` either leaves the frontier unchanged or appends one
node at depth `level` to its end. -/
theorem exploreRight_queue_cases (est : BnBEnv → Solution → ℚ) (env : BnBEnv)
    (cur : Solution) (level : Nat) (st : BnBState) :
    (exploreRight est env cur level st).queue = st.queue ∨
    ∃ sol : Solution, sol.level = level ∧
      (exploreRight est env cur level st).queue = st.queue ++ [sol] := by
  rw [exploreRight]
  rcases explore_tail_queue_cases
      (setSolution est env level cur.value cur.weight cur.products) st with h | h
  · exact Or.inl h
  · exact Or.inr ⟨_, setSolution_level est env level _ _ _, h⟩

/-- `_explore_tree` only appends to the frontier: either nothing (leaf or
pruned node), or at most two children, all at depth `level + 1`. -/
theorem exploreTree_queue_cases (est : BnBEnv → Solution → ℚ) (env : BnBEnv)
    (sol : Solution) (st : BnBState) :
    (exploreTree est env sol st).queue = st.queue ∨
    (sol.level < env.n ∧ ∃ tail, (∀ c ∈ tail, c.level = sol.level + 1) ∧
      tail.length ≤ 2 ∧ (exploreTree est env sol st).queue = st.queue ++ tail) := by
  rw [exploreTree]
  split
  · rename_i hlev
    split
    · right
      refine ⟨hlev, ?_⟩
      rcases exploreLeft_queue_cases est env sol (sol.level + 1) st with hL | ⟨s1, hs1, hL⟩
      · rcases exploreRight_queue_cases est env sol (sol.level + 1)
            (exploreLeft est env sol (sol.level + 1) st) with hR | ⟨s2, hs2, hR⟩
        · exact ⟨[], by simp, by simp, by rw [hR, hL, List.append_nil]⟩
        · exact ⟨[s2], by simpa using hs2, by simp,
            by rw [hR, hL]⟩
      · rcases exploreRight_queue_cases est env sol (sol.level + 1)
            (exploreLeft est env sol (sol.level + 1) st) with hR | ⟨s2, hs2, hR⟩
        · exact ⟨[s1], by simpa using hs1, by simp, by rw [hR, hL]⟩
        · refine ⟨[s1, s2], ?_, by simp, ?_⟩
          · intro c hc
            rcases List.mem_cons.1 hc with rfl | hc
            · exact hs1
            · rw [List.mem_singleton.1 hc]; exact hs2
          · rw [hR, hL, List.append_assoc]; rfl
    · exact Or.inl rfl
  · exact Or.inl rfl

/-- C7.  The frontier of the (depth-first) solver behaves as a LIFO stack:
whenever the queue lists its pending nodes in insertion order with `s` the
most recently inserted, the next loop iteration removes exactly `s`
(`self.queue.pop()` takes the last element) and explores it, and exploring
only appends new nodes at the end, so the queue stays in insertion order
throughout `execute`. -/
theorem c7_depth_first_frontier_lifo (est : BnBEnv → Solution → ℚ) (env : BnBEnv)
    (st : BnBState) (q : List Solution) (s : Solution) (h : st.queue = q ++ [s]) :
    bnbStep est env st = exploreTree est env s { st with queue := q } ∧
    ∃ tail, (exploreTree est env s { st with queue := q }).queue = q ++ tail := by
  constructor
  · rw [bnbStep, h, List.getLast?_concat, List.dropLast_concat]
  · rcases exploreTree_queue_cases est env s { st with queue := q } with hc | ⟨-, tail, -, -, hc⟩
    · exact ⟨[], by rw [hc, List.append_nil]⟩
    · exact ⟨tail, hc⟩

/-- C7, witness: a one-node frontier. -/
theorem c7_depth_first_frontier_lifo_witness :
    bnbStep estimateIntegrality ⟨[], 0⟩ ⟨0, ∅, [⟨0, 0, 0, 0, []⟩]⟩
      = exploreTree estimateIntegrality ⟨[], 0⟩ ⟨0, 0, 0, 0, []⟩ ⟨0, ∅, []⟩ ∧
    ∃ tail, (exploreTree estimateIntegrality ⟨[], 0⟩ ⟨0, 0, 0, 0, []⟩ ⟨0, ∅, []⟩).queue
      = [] ++ tail :=
  c7_depth_first_frontier_lifo estimateIntegrality ⟨[], 0⟩
    ⟨0, ∅, [⟨0, 0, 0, 0, []⟩]⟩ [] ⟨0, 0, 0, 0, []⟩ rfl

/-! ### Termination of `execute` (C9) -/

/-- Termination measure: each pending node at depth `d` weighs `3 ^ (n - d)`;
popping a node removes its weight and adds at most `2 * 3 ^ (n - d - 1)`,
which is strictly smaller. -/
def queueMeasure (env : BnBEnv) (st : BnBState) : Nat :=
  (st.queue.map fun s => 3 ^ (env.n - s.level)).sum

theorem bnbStep_measure_lt (est : BnBEnv → Solution → ℚ) (env : BnBEnv) (st : BnBState)
    (hne : st.queue ≠ []) :
    queueMeasure env (bnbStep est env st) < queueMeasure env st := by
  rw [bnbStep]
  cases hq : st.queue.getLast? with
  | none =>
    exact absurd (List.getLast?_eq_none_iff.1 hq) hne
  | some sol =>
    have hg : st.queue.getLast hne = sol := by
      have := List.getLast?_eq_getLast st.queue hne
      rw [hq] at this
      exact (Option.some.injEq _ _ ▸ this).symm
    have hqeq : st.queue = st.queue.dropLast ++ [sol] := by
      rw [← hg]
      exact (List.dropLast_concat_getLast hne).symm
    have hm : queueMeasure env st
        = (st.queue.dropLast.map fun s => 3 ^ (env.n - s.level)).sum
          + 3 ^ (env.n - sol.level) := by
      rw [queueMeasure]
      conv_lhs => rw [hqeq]
      rw [List.map_append, List.sum_append]
      simp
    rcases exploreTree_queue_cases est env sol { st with queue := st.queue.dropLast }
      with h | ⟨hlt, tail, htl, htlen, h⟩
    · rw [queueMeasure, h, hm]
      dsimp only
      have hp : 0 < 3 ^ (env.n - sol.level) := pow_pos (by norm_num) _
      omega
    · rw [queueMeasure, h, List.map_append, List.sum_append]
      dsimp only
      have htail : ((tail.map fun s => 3 ^ (env.n - s.level)).sum)
          = tail.length * 3 ^ (env.n - (sol.level + 1)) := by
        rw [List.map_congr_left fun c hc => by rw [htl c hc]]
        rw [List.map_const', List.sum_replicate, smul_eq_mul]
      have hexp : 2 * 3 ^ (env.n - (sol.level + 1)) < 3 ^ (env.n - sol.level) := by
        have hsplit : env.n - sol.level = (env.n - (sol.level + 1)) + 1 := by omega
        rw [hsplit, pow_succ]
        have hp : 0 < 3 ^ (env.n - (sol.level + 1)) := pow_pos (by norm_num) _
        omega
      have htlen' : tail.length * 3 ^ (env.n - (sol.level + 1))
          ≤ 2 * 3 ^ (env.n - (sol.level + 1)) :=
        Nat.mul_le_mul_right _ htlen
      rw [hm, htail]
      omega

theorem bnbLoop_isSome (est : BnBEnv → Solution → ℚ) (env : BnBEnv) :
    ∀ (fuel : Nat) (st : BnBState),
      queueMeasure env st < fuel → ∃ stF, bnbLoop est env fuel st = some stF := by
  intro fuel
  induction fuel with
  | zero =>
    intro st h
    exact absurd h (Nat.not_lt_zero _)
  | succ fuel ih =>
    intro st hm
    rw [bnbLoop]
    split
    · exact ⟨st, rfl⟩
    · rename_i hne
      apply ih
      have := bnbStep_measure_lt est env st hne
      omega

/-- C9.  `execute` always terminates with a result, for every environment
and bounding strategy: each dequeued node either is at depth `n` (and
produces no children) or produces children only at strictly greater depth,
so the frontier empties within the fuel `3 ^ n + 1` that `executeBnB`
provides. -/
theorem c9_execute_terminates (est : BnBEnv → Solution → ℚ) (env : BnBEnv) :
    ∃ r, executeBnB est env = some r := by
  rw [executeBnB]
  obtain ⟨stF, h⟩ := bnbLoop_isSome est env (3 ^ env.n + 1) (initState est env)
    (by
      rw [queueMeasure, initState]
      simp)
  exact ⟨getFinalSolution env stF, by rw [h]; rfl⟩
